import Mathlib

/-!
Verification of the correction-diff engine of the Word add-in pipeline.

Text is modelled as `List Char` (JavaScript strings viewed as sequences of
code points).  Pure functions of the source are translated directly; the
stateful review-session manager is modelled by explicit state passing.
Definitions whose source lives in the external `diff-match-patch` npm
dependency are marked `Modelled from the spec:` in their doc comments.
-/

set_option maxRecDepth 4000

-- ===========================================================================
-- Definitions: shallow embedding of the source
-- ===========================================================================

/-- The character class of JavaScript `\s` (also the set removed by
`String.prototype.trim`): ASCII whitespace, NBSP, the Unicode space
separators, line/paragraph separators and the BOM. -/
def isJsWS (c : Char) : Bool :=
  [9, 10, 11, 12, 13, 32, 0xa0, 0x1680,
   0x2000, 0x2001, 0x2002, 0x2003, 0x2004, 0x2005, 0x2006, 0x2007,
   0x2008, 0x2009, 0x200a, 0x2028, 0x2029, 0x202f, 0x205f, 0x3000,
   0xfeff].contains c.toNat

/-- JavaScript `String.prototype.trim`: drop leading and trailing `\s`. -/
def trimJs (l : List Char) : List Char :=
  ((l.dropWhile isJsWS).reverse.dropWhile isJsWS).reverse

/-- One step of JavaScript global `String.replace(re, '')`: scan left to
right; `m` returns the length of a match starting at the given position
(always ≥ 1 for the matchers used here); on a match the matched span is
skipped, otherwise the character is kept.  Fuel-indexed so that the
function is structurally recursive; `fuel = l.length` always suffices. -/
def replaceAllF (m : List Char → Option Nat) : Nat → List Char → List Char
  | _, [] => []
  | 0, l => l
  | fuel + 1, c :: cs =>
    match m (c :: cs) with
    | some n => replaceAllF m fuel (cs.drop (n - 1))
    | none => c :: replaceAllF m fuel cs

/-- JavaScript global replace-with-empty of the regex recognised by `m`. -/
def replaceAll (m : List Char → Option Nat) (l : List Char) : List Char :=
  replaceAllF m l.length l

/-- Matcher for `/<\{[^}]+\}>\s*/` (documentMapping.ts line 21): `<{`, a
nonempty run of non-`}` characters, `}>`, then greedy whitespace.  Returns
the length of the match starting at the head of the list. -/
def styleTagLen (l : List Char) : Option Nat :=
  match l with
  | c0 :: c1 :: rest =>
    if c0 = '<' ∧ c1 = '{' then
      let body := rest.takeWhile (fun c => c ≠ '}')
      if body = [] then none
      else
        match rest.drop body.length with
        | c2 :: c3 :: rest2 =>
          if c2 = '}' ∧ c3 = '>' then
            some (4 + body.length + (rest2.takeWhile isJsWS).length)
          else none
        | _ => none
    else none
  | _ => none

/-- Matcher for `/<\[[^\]]+\]>/` (documentMapping.ts line 22): `<[`, a
nonempty run of non-`]` characters, `]>`. -/
def inlineTagLen (l : List Char) : Option Nat :=
  match l with
  | c0 :: c1 :: rest =>
    if c0 = '<' ∧ c1 = '[' then
      let body := rest.takeWhile (fun c => c ≠ ']')
      if body = [] then none
      else
        match rest.drop body.length with
        | c2 :: c3 :: _ =>
          if c2 = ']' ∧ c3 = '>' then some (4 + body.length) else none
        | _ => none
    else none
  | _ => none

/-- Matcher for `/\[[^\]]+\]/` (documentMapping.ts line 23): `[`, a
nonempty run of non-`]` characters, `]`. -/
def bracketTagLen (l : List Char) : Option Nat :=
  match l with
  | c0 :: rest =>
    if c0 = '[' then
      let body := rest.takeWhile (fun c => c ≠ ']')
      if body = [] then none
      else
        match rest.drop body.length with
        | c2 :: _ => if c2 = ']' then some (2 + body.length) else none
        | _ => none
    else none
  | _ => none

/-- `removeMarkupTags` of src/src/taskpane/utils/documentMapping.ts
(lines 18–25): strip `<{name}>` style tags (with trailing whitespace),
`<[name]>` / `<[/name]>` inline tags, bare `[name]` annotations, then
trim. -/
def removeMarkupTagsDm (l : List Char) : List Char :=
  trimJs (replaceAll bracketTagLen (replaceAll inlineTagLen (replaceAll styleTagLen l)))

/-- `removeMarkupTags` of src/unnamed/part_001 (lines 257–263): same as the
documentMapping.ts version but WITHOUT the bare-`[name]` pass. -/
def removeMarkupTagsP1 (l : List Char) : List Char :=
  trimJs (replaceAll inlineTagLen (replaceAll styleTagLen l))

/-- Matcher for `/<\{[^}]+\}\s*/` (jsonProcessor.ts line 183).  Note the
regex has no closing `>` after `\}`: it consumes `<{name}` plus whitespace
and leaves the `>` in place. -/
def styleTagJsonLen (l : List Char) : Option Nat :=
  match l with
  | c0 :: c1 :: rest =>
    if c0 = '<' ∧ c1 = '{' then
      let body := rest.takeWhile (fun c => c ≠ '}')
      if body = [] then none
      else
        match rest.drop body.length with
        | c2 :: rest2 =>
          if c2 = '}' then some (3 + body.length + (rest2.takeWhile isJsWS).length)
          else none
        | _ => none
    else none
  | _ => none

/-- Matcher for `/<\[[^]]+]>/` (jsonProcessor.ts line 184).  In JavaScript
`[^]` is the negated-empty class (any character) and the following `]` is a
literal, so the pattern is `<[`, one arbitrary character, one or more `]`,
then `>`: only single-character inline tags like `<[b]>` match; `<[/b]>`
does not. -/
def inlineTagJsonLen (l : List Char) : Option Nat :=
  match l with
  | c0 :: c1 :: _ :: rest =>
    if c0 = '<' ∧ c1 = '[' then
      let brs := rest.takeWhile (fun c => c = ']')
      if brs = [] then none
      else
        match rest.drop brs.length with
        | c2 :: _ => if c2 = '>' then some (4 + brs.length) else none
        | _ => none
    else none
  | _ => none

/-- `removeMarkupTags` of src/src/taskpane/utils/jsonProcessor.ts
(lines 181–186). -/
def removeMarkupTagsJson (l : List Char) : List Char :=
  trimJs (replaceAll inlineTagJsonLen (replaceAll styleTagJsonLen l))

/-- A diff operation: dmp's `[0, text]` / `[-1, text]` / `[1, text]`. -/
inductive DiffOp where
  | equal (t : List Char)
  | del (t : List Char)
  | ins (t : List Char)
deriving DecidableEq, Repr

/-- Original-side text of one operation (Equal and Delete carry original
text, Insert does not). -/
def opText1 : DiffOp → List Char
  | .equal t => t
  | .del t => t
  | .ins _ => []

/-- Edited-side text of one operation (Equal and Insert carry edited text,
Delete does not). -/
def opText2 : DiffOp → List Char
  | .equal t => t
  | .del _ => []
  | .ins t => t

/-- Concatenation of the original-side text of a diff sequence. -/
def text1Side : List DiffOp → List Char
  | [] => []
  | op :: l => opText1 op ++ text1Side l

/-- Concatenation of the edited-side text of a diff sequence. -/
def text2Side : List DiffOp → List Char
  | [] => []
  | op :: l => opText2 op ++ text2Side l

/-- Number of inserted plus deleted characters of a diff sequence. -/
def editCost : List DiffOp → Nat
  | [] => 0
  | .equal _ :: l => editCost l
  | .del t :: l => t.length + editCost l
  | .ins t :: l => t.length + editCost l

/-- Prepend one equal character, merging with an existing leading run. -/
def pushEq (c : Char) : List DiffOp → List DiffOp
  | .equal t :: l => .equal (c :: t) :: l
  | l => .equal [c] :: l

/-- Prepend one deleted character, merging with an existing leading run. -/
def pushDel (c : Char) : List DiffOp → List DiffOp
  | .del t :: l => .del (c :: t) :: l
  | l => .del [c] :: l

/-- Prepend one inserted character, merging with an existing leading run. -/
def pushIns (c : Char) : List DiffOp → List DiffOp
  | .ins t :: l => .ins (c :: t) :: l
  | l => .ins [c] :: l

/-- Modelled from the spec: the core of the diff engine, `diff_main`'s
recursive computation on the region left after common-affix trimming — a
"standard longest-common-subsequence-based text diff … over Unicode code
points" whose tie-break keeps "equal-runs maximal at the start of the
compared region" (matching heads are always taken as Equal, and on a cost
tie the delete-first alternative is preferred).  Fuel-indexed to be
structurally recursive; `fuel = a.length + b.length` always suffices, and
the fuel-exhausted branch still yields a valid edit script. -/
def diffCoreF : Nat → List Char → List Char → List DiffOp
  | _, [], [] => []
  | _, [], b :: bs => [.ins (b :: bs)]
  | _, a :: as, [] => [.del (a :: as)]
  | 0, a :: as, b :: bs => [.del (a :: as), .ins (b :: bs)]
  | fuel + 1, a :: as, b :: bs =>
    if a = b then pushEq a (diffCoreF fuel as bs)
    else if editCost (diffCoreF fuel as (b :: bs)) ≤ editCost (diffCoreF fuel (a :: as) bs)
    then pushDel a (diffCoreF fuel as (b :: bs))
    else pushIns b (diffCoreF fuel (a :: as) bs)

/-- Longest common head run of two character lists. -/
def commonHead : List Char → List Char → List Char
  | a :: as, b :: bs => if a = b then a :: commonHead as bs else []
  | _, _ => []

/-- Longest common tail run of two character lists. -/
def commonTail (a b : List Char) : List Char :=
  (commonHead a.reverse b.reverse).reverse

/-- Prepend an equality run, merging with a leading equality if present. -/
def pushEqList (t : List Char) : List DiffOp → List DiffOp
  | .equal u :: l => .equal (t ++ u) :: l
  | l => .equal t :: l

/-- Canonicalisation pass (dmp's `diff_cleanupMerge`): coalesce adjacent
operations of the same kind, drop empty equalities, and order deletions
before insertions inside each edit block.  `d`/`i` accumulate the pending
deleted/inserted text of the current edit block. -/
def mergeAux (d i : List Char) : List DiffOp → List DiffOp
  | [] =>
    (if d = [] then [] else [.del d]) ++ (if i = [] then [] else [.ins i])
  | .del t :: rest => mergeAux (d ++ t) i rest
  | .ins t :: rest => mergeAux d (i ++ t) rest
  | .equal t :: rest =>
    if t = [] then mergeAux d i rest
    else
      (if d = [] then [] else [.del d]) ++ (if i = [] then [] else [.ins i]) ++
        pushEqList t (mergeAux [] [] rest)

/-- dmp's `diff_cleanupMerge`, run at the end of `diff_main` and of both
cleanup passes. -/
def cleanupMerge (l : List DiffOp) : List DiffOp := mergeAux [] [] l

/-- Modelled from the spec: `diff_main` of the diff-match-patch dependency.
Equal inputs short-circuit; otherwise the common head and tail runs are
split off as Equal operations and the interior is diffed by the LCS core,
followed by the merge canonicalisation. -/
def diffMain (a b : List Char) : List DiffOp :=
  if a = b then (if a = [] then [] else [.equal a])
  else
    let p := commonHead a b
    let a1 := a.drop p.length
    let b1 := b.drop p.length
    let s := commonTail a1 b1
    let a2 := a1.take (a1.length - s.length)
    let b2 := b1.take (b1.length - s.length)
    cleanupMerge
      ((if p = [] then [] else [.equal p]) ++ diffCoreF (a2.length + b2.length) a2 b2 ++
        (if s = [] then [] else [.equal s]))

/-- Is the operation an edit (Insert or Delete)? -/
def isEditOp : DiffOp → Bool
  | .equal _ => false
  | _ => true

/-- Length of the span carried by an operation. -/
def opLen : DiffOp → Nat
  | .equal t => t.length
  | .del t => t.length
  | .ins t => t.length

/-- Modelled from the spec: the core of `diff_cleanupSemantic` — an
equality "not meaningfully distinct from surrounding context" (no longer
than the edits on both sides of it, e.g. a single-character equality
sandwiched between edits) is reabsorbed into the edits, implemented as dmp
does by splitting the equality into a Delete plus an Insert of the same
text and letting the merge pass coalesce. -/
def semCore : List DiffOp → List DiffOp
  | a :: .equal e :: b :: rest =>
    if isEditOp a ∧ isEditOp b ∧ e.length ≤ opLen a ∧ e.length ≤ opLen b then
      a :: .del e :: .ins e :: semCore (b :: rest)
    else a :: semCore (.equal e :: b :: rest)
  | a :: rest => a :: semCore rest
  | [] => []

/-- Modelled from the spec: `diff_cleanupSemantic` of diff-match-patch. -/
def cleanupSemantic (l : List DiffOp) : List DiffOp := cleanupMerge (semCore l)

/-- Modelled from the spec: the core of `diff_cleanupEfficiency` — a short
equality (shorter than the default edit cost 4) separating two full edit
blocks (each with both a deletion and an insertion) is reabsorbed, trading
a slightly larger diff for fewer spans. -/
def effCore : List DiffOp → List DiffOp
  | .del d :: .ins i :: .equal e :: .del d2 :: .ins i2 :: rest =>
    if e.length < 4 then
      .del d :: .ins i :: .del e :: .ins e :: effCore (.del d2 :: .ins i2 :: rest)
    else .del d :: effCore (.ins i :: .equal e :: .del d2 :: .ins i2 :: rest)
  | a :: rest => a :: effCore rest
  | [] => []

/-- Modelled from the spec: `diff_cleanupEfficiency` of diff-match-patch. -/
def cleanupEfficiency (l : List DiffOp) : List DiffOp := cleanupMerge (effCore l)

/-- The diff pipeline exactly as called by `processCorrectionData`
(documentMapping.ts lines 206–209): `diff_main`, then
`diff_cleanupSemantic`, then `diff_cleanupEfficiency`. -/
def diffPipeline (a b : List Char) : List DiffOp :=
  cleanupEfficiency (cleanupSemantic (diffMain a b))

/-- `changeType` of a `CorrectionObject`. -/
inductive ChangeType where
  | addition
  | deletion
  | modification
deriving DecidableEq, Repr

/-- `status` of a `CorrectionObject`. -/
inductive Status where
  | pending
  | applied
  | rejected
  | skipped
deriving DecidableEq, Repr

/-- `errorType` of a `CorrectionObject` (Grammarly-style categorisation). -/
inductive ErrorKind where
  | missing
  | extra
  | modified
deriving DecidableEq, Repr

/-- The `CorrectionObject` interface of documentMapping.ts (lines 36–51).
The optional `wordRange` handle into the live document is modelled by the
flag `hasWordRange` (it is never set by `processCorrectionData`, so
corrections from the pipeline carry `false`). -/
structure Correction where
  id : String
  paragraphNumber : Nat
  wordNativeParaId : String
  originalText : List Char
  correctedText : List Char
  changeType : ChangeType
  startOffset : Nat
  endOffset : Nat
  hasWordRange : Bool
  status : Status
  diffText : List Char
  suggestion : String
  actionDescription : String
  errorType : ErrorKind
deriving DecidableEq, Repr

/-- The deletion correction record built for a Delete diff operation
(documentMapping.ts lines 235–246 and 260–274). -/
def mkDeletionCorrection (pid : String) (pn : Nat) (ot ct : List Char)
    (cursor idx : Nat) (t : List Char) : Correction :=
  { id := pid ++ "-error-" ++ toString (idx + 1)
    paragraphNumber := pn
    wordNativeParaId := pid
    originalText := ot
    correctedText := ct
    changeType := .deletion
    startOffset := cursor
    endOffset := cursor + t.length
    hasWordRange := false
    status := .pending
    diffText := t
    suggestion := "Delete \"" ++ String.mk (trimJs t) ++ "\""
    actionDescription := "Remove extra text: \"" ++ String.mk (trimJs t) ++ "\""
    errorType := .extra }

/-- The addition correction record built for an Insert diff operation
(documentMapping.ts lines 247–258 and 260–274). -/
def mkAdditionCorrection (pid : String) (pn : Nat) (ot ct : List Char)
    (cursor idx : Nat) (t : List Char) : Correction :=
  { id := pid ++ "-error-" ++ toString (idx + 1)
    paragraphNumber := pn
    wordNativeParaId := pid
    originalText := ot
    correctedText := ct
    changeType := .addition
    startOffset := cursor
    endOffset := cursor
    hasWordRange := false
    status := .pending
    diffText := t
    suggestion := "Add \"" ++ String.mk (trimJs t) ++ "\""
    actionDescription := "Insert missing text: \"" ++ String.mk (trimJs t) ++ "\""
    errorType := .missing }

/-- The diff-walking loop of `processCorrectionData` (lines 213–278): a
cursor over the original text starts at 0; Equal advances it and emits
nothing; Delete emits a deletion correction then advances it; Insert emits
a zero-width addition correction without advancing it.  `idx` is the
running `correctionIndex` (incremented before each emission). -/
def synthWalk (pid : String) (pn : Nat) (ot ct : List Char) :
    Nat → Nat → List DiffOp → List Correction
  | _, _, [] => []
  | cursor, idx, .equal t :: l => synthWalk pid pn ot ct (cursor + t.length) idx l
  | cursor, idx, .del t :: l =>
    mkDeletionCorrection pid pn ot ct cursor idx t ::
      synthWalk pid pn ot ct (cursor + t.length) (idx + 1) l
  | cursor, idx, .ins t :: l =>
    mkAdditionCorrection pid pn ot ct cursor idx t ::
      synthWalk pid pn ot ct cursor (idx + 1) l

/-- The per-paragraph body of `processCorrectionData` (lines 189–281):
`wordText` is the matched live paragraph's text trimmed; the corrected
text is the edited text with markup stripped and trimmed; identical texts
short-circuit (no diff is computed, no corrections emitted); otherwise the
diff pipeline runs and its operations are walked. -/
def processParagraph (pid : String) (pn : Nat)
    (wordTextRaw latestEditedText : List Char) : List Correction :=
  let wordText := trimJs wordTextRaw
  let jsonCorrectedText := trimJs (removeMarkupTagsDm latestEditedText)
  if wordText = jsonCorrectedText then []
  else synthWalk pid pn wordText jsonCorrectedText 0 0
    (diffPipeline wordText jsonCorrectedText)

/-- The `ReviewSession` record (part_002 lines 237–242).  The `startTime`
field (a wall-clock `Date`) is not modelled. -/
structure Session where
  corrections : List Correction
  currentIndex : Nat
  isActive : Bool
deriving DecidableEq, Repr

/-- `startReview` (lines 252–267): snapshot-copy the corrections, cursor
to 0, mark active.  The preview-highlighting side effect touches only the
external document's formatting, never the session state or paragraph
text. -/
def startReview (cs : List Correction) : Session :=
  { corrections := cs, currentIndex := 0, isActive := true }

/-- `getCurrentCorrection` (lines 272–277): the correction at the cursor,
or none when the cursor is at or past the end. -/
def getCurrentCorrection (s : Session) : Option Correction :=
  s.corrections.get? s.currentIndex

/-- `navigateNext` (lines 350–356): advance only while strictly before the
last index (`currentIndex < corrections.length - 1`). -/
def navigateNext (s : Session) : Session :=
  if s.currentIndex < s.corrections.length - 1 then
    { s with currentIndex := s.currentIndex + 1 }
  else s

/-- `navigatePrevious` (lines 361–367). -/
def navigatePrevious (s : Session) : Session :=
  if 0 < s.currentIndex then { s with currentIndex := s.currentIndex - 1 } else s

/-- `navigateToIndex` (lines 372–378): clamp to `[0, length)`. -/
def navigateToIndex (s : Session) (i : Nat) : Session :=
  if i < s.corrections.length then { s with currentIndex := i } else s

/-- In-place status mutation of the correction at an index (the source
mutates the object returned by `getCurrentCorrection`). -/
def setStatusAt (cs : List Correction) (i : Nat) (st : Status) : List Correction :=
  match cs.get? i with
  | some c => cs.set i { c with status := st }
  | none => cs

/-- `rejectCurrentCorrection` (lines 326–333): set the current
correction's status to rejected — with NO check of its previous status —
then `moveToNext` (which is `navigateNext` plus logging). -/
def rejectCurrentCorrection (s : Session) : Session :=
  match getCurrentCorrection s with
  | some _ =>
    navigateNext { s with corrections := setStatusAt s.corrections s.currentIndex .rejected }
  | none => s

/-- `skipCurrentCorrection` (lines 338–345): as above with skipped. -/
def skipCurrentCorrection (s : Session) : Session :=
  match getCurrentCorrection s with
  | some _ =>
    navigateNext { s with corrections := setStatusAt s.corrections s.currentIndex .skipped }
  | none => s

/-- `applyCurrentCorrection` (lines 282–321): returns false without any
state change when there is no current correction or it has no `wordRange`
handle; otherwise the mutation runs against the external range handle (not
against the paragraph list tracked here), the status is set to applied —
again with no check of the previous status — and the cursor moves on. -/
def applyCurrentCorrection (s : Session) : Session × Bool :=
  match getCurrentCorrection s with
  | none => (s, false)
  | some c =>
    if c.hasWordRange then
      (navigateNext { s with corrections := setStatusAt s.corrections s.currentIndex .applied },
        true)
    else (s, false)

/-- `ReviewProgress` (part_002 lines 228–235). -/
structure ReviewProgress where
  current : Nat
  total : Nat
  applied : Nat
  rejected : Nat
  skipped : Nat
  pending : Nat
deriving DecidableEq, Repr

/-- `getProgress` (lines 383–398): zeros without a session; otherwise the
counts are recomputed from the corrections' current statuses on every call
(the source folds over the list incrementing `acc[status]`). -/
def getProgress (os : Option Session) : ReviewProgress :=
  match os with
  | none => { current := 0, total := 0, applied := 0, rejected := 0, skipped := 0, pending := 0 }
  | some s =>
    { current := s.currentIndex + 1
      total := s.corrections.length
      applied := s.corrections.countP (fun c => c.status == Status.applied)
      rejected := s.corrections.countP (fun c => c.status == Status.rejected)
      skipped := s.corrections.countP (fun c => c.status == Status.skipped)
      pending := s.corrections.countP (fun c => c.status == Status.pending) }

/-- `text.trim().replace(/\s+/g, ' ')` — the whitespace-collapsed
comparison form used by the applier's precondition and verification.
Fuel-indexed run collapsing; `fuel = length` suffices. -/
def collapseRunsF : Nat → List Char → List Char
  | _, [] => []
  | 0, l => l
  | fuel + 1, c :: cs =>
    if isJsWS c then ' ' :: collapseRunsF fuel (cs.dropWhile isJsWS)
    else c :: collapseRunsF fuel cs

/-- Whitespace collapse: trim, then squash each internal whitespace run to
a single space. -/
def collapseWs (l : List Char) : List Char :=
  collapseRunsF (trimJs l).length (trimJs l)

/-- Does the pattern match at the head of the text, ignoring ASCII case
(the applier's Word searches pass `matchCase: false`)? -/
def matchesAtCI : List Char → List Char → Bool
  | [], _ => true
  | _ :: _, [] => false
  | p :: ps, t :: ts => (p.toLower == t.toLower) && matchesAtCI ps ts

/-- First index at which the pattern occurs in the text, case-insensitive
(models `Range.search(..., { matchCase: false })` returning its first
item). -/
def findCIAux (pat : List Char) : List Char → Nat → Option Nat
  | [], i => if pat = [] then some i else none
  | t :: ts, i =>
    if matchesAtCI pat (t :: ts) then some i else findCIAux pat ts (i + 1)

/-- First case-insensitive occurrence of `pat` in `text`. -/
def findCI (text pat : List Char) : Option Nat := findCIAux pat text 0

/-- JavaScript `substring(a, b)` for `a ≤ b` within bounds. -/
def substringJs (l : List Char) (a b : Nat) : List Char := (l.take b).drop a

/-- Insert `t` at position `i`. -/
def insertAt (l : List Char) (i : Nat) (t : List Char) : List Char :=
  l.take i ++ t ++ l.drop i

/-- `applyDeletionCorrection` (part_002 lines 938–978): the found span is
struck through and recoloured but the text is deliberately KEPT ("We keep
the text with strikethrough instead of deleting it"); the not-found
fallback only highlights.  Either way the paragraph text is unchanged. -/
def applyDeletionText (paraText diffText : List Char) : List Char :=
  match findCI paraText diffText with
  | some _ => paraText
  | none => paraText

/-- `applyAdditionCorrection` (lines 983–1032): for an interior offset,
insert `diffText` after the ten-character context window found before the
insertion point; otherwise (or when the context is not found or blank)
append at the end of the paragraph. -/
def applyAdditionText (paraText : List Char) (startOffset : Nat)
    (diffText : List Char) : List Char :=
  if 0 < startOffset ∧ startOffset < paraText.length then
    if trimJs (substringJs paraText (startOffset - 10) startOffset) ≠ [] then
      match findCI paraText (substringJs paraText (startOffset - 10) startOffset) with
      | some i =>
        insertAt paraText (i + (substringJs paraText (startOffset - 10) startOffset).length)
          diffText
      | none => paraText ++ diffText
    else paraText ++ diffText
  else paraText ++ diffText

/-- `applyModificationCorrection` (lines 1037–1101): whole-paragraph
replacement when the offsets span the full original text; otherwise
replace the first case-insensitive occurrence of the segment at
`[startOffset, endOffset)`; if it is not found only a highlight is applied
and the text is unchanged. -/
def applyModificationText (paraText : List Char) (c : Correction) : List Char :=
  if c.startOffset = 0 ∧ c.endOffset = c.originalText.length then c.diffText
  else
    match findCI paraText (substringJs paraText c.startOffset c.endOffset) with
    | some i =>
      paraText.take i ++ c.diffText
        ++ paraText.drop (i + (substringJs paraText c.startOffset c.endOffset).length)
    | none => paraText

/-- Result of one apply attempt on a paragraph: the paragraph's text
afterwards and whether the post-mutation verification succeeded. -/
structure ApplyOutcome where
  text : List Char
  ok : Bool
deriving DecidableEq, Repr

/-- The text-level behaviour of `applySpecificCorrection` (part_002 lines
793–921) on one paragraph.  Precondition: when the collapsed current text
differs from the collapsed recorded original, the paragraph-level fallback
replaces the whole content with the trimmed corrected text and on a failed
verification restores the exact snapshot (lines 817, 837–841).  Otherwise
the segment-level mutation for the change type runs; on a failed
verification the source restores `normalizedCurrent` — the trimmed,
whitespace-COLLAPSED current text — instead of the exact snapshot it saved
(lines 867, 891–894). -/
def applySpecificCorrectionText (paraText : List Char) (c : Correction) : ApplyOutcome :=
  if collapseWs paraText ≠ collapseWs c.originalText then
    if collapseWs (trimJs c.correctedText) ≠ collapseWs (trimJs c.correctedText) then
      { text := paraText, ok := false }
    else { text := trimJs c.correctedText, ok := true }
  else
    if collapseWs (match c.changeType with
        | .deletion => applyDeletionText paraText c.diffText
        | .addition => applyAdditionText paraText c.startOffset c.diffText
        | .modification => applyModificationText paraText c)
        ≠ collapseWs c.correctedText then
      { text := collapseWs paraText, ok := false }
    else
      { text :=
          (match c.changeType with
           | .deletion => applyDeletionText paraText c.diffText
           | .addition => applyAdditionText paraText c.startOffset c.diffText
           | .modification => applyModificationText paraText c)
        ok := true }

/-- Status mutation of the correction found by id (the source mutates the
object returned by `find`). -/
def setStatusById (cs : List Correction) (cid : String) (st : Status) : List Correction :=
  cs.map (fun c => if c.id == cid then { c with status := st } else c)

/-- `applySpecificCorrection` (lines 749–933) at the session level, with
the live document modelled as the list of paragraph texts (indexed by
`paragraphNumber - 1`).  Not-found / non-pending / out-of-range cases
return false with no state change; a failed verification leaves the
rollback text in the document, surfaces failure and does NOT set the
status to applied; success writes the text and sets the status. -/
def applySpecificSession (doc : List (List Char)) (s : Session) (cid : String) :
    List (List Char) × Session × Bool :=
  match s.corrections.find? (fun c => c.id == cid) with
  | none => (doc, s, false)
  | some c =>
    if c.status ≠ Status.pending then (doc, s, false)
    else
      match doc.get? (c.paragraphNumber - 1) with
      | none => (doc, s, false)
      | some paraText =>
        if (applySpecificCorrectionText paraText c).ok then
          (doc.set (c.paragraphNumber - 1) (applySpecificCorrectionText paraText c).text,
            { s with corrections := setStatusById s.corrections cid .applied }, true)
        else
          (doc.set (c.paragraphNumber - 1) (applySpecificCorrectionText paraText c).text,
            s, false)

/-- `rejectSpecificCorrection` (lines 1106–1115): only a pending
correction can be rejected by id. -/
def rejectSpecificSession (s : Session) (cid : String) : Session × Bool :=
  match s.corrections.find? (fun c => c.id == cid) with
  | none => (s, false)
  | some c =>
    if c.status ≠ Status.pending then (s, false)
    else ({ s with corrections := setStatusById s.corrections cid .rejected }, true)

/-- A sample pending correction used by the concrete session theorems. -/
def demoCorr : Correction :=
  { id := "D1-error-1"
    paragraphNumber := 1
    wordNativeParaId := "D1"
    originalText := "ab".toList
    correctedText := "b".toList
    changeType := .deletion
    startOffset := 0
    endOffset := 1
    hasWordRange := true
    status := .pending
    diffText := ['a']
    suggestion := "Delete \"a\""
    actionDescription := "Remove extra text: \"a\""
    errorType := .extra }

/-- A sample already-applied correction. -/
def demoApplied : Correction :=
  { demoCorr with id := "D1-error-2", status := .applied }

/-- A pending deletion correction for paragraph 1 whose recorded original
text "Hello world" matches the live text "Hello  world" only up to
whitespace collapsing, and whose segment-level mutation cannot reach the
corrected text (the deletion applier keeps the text). -/
def c3Correction : Correction :=
  { id := "B2-error-1"
    paragraphNumber := 1
    wordNativeParaId := "B2"
    originalText := "Hello world".toList
    correctedText := "Hello world!".toList
    changeType := .deletion
    startOffset := 10
    endOffset := 11
    hasWordRange := false
    status := .pending
    diffText := ['l']
    suggestion := "Delete \"l\""
    actionDescription := "Remove extra text: \"l\""
    errorType := .extra }

-- ===========================================================================
-- Theorems
-- ===========================================================================

theorem text1_append (l1 l2 : List DiffOp) :
    text1Side (l1 ++ l2) = text1Side l1 ++ text1Side l2 := by
  induction l1 with
  | nil => rfl
  | cons op t ih => simp [text1Side, ih]

theorem text2_append (l1 l2 : List DiffOp) :
    text2Side (l1 ++ l2) = text2Side l1 ++ text2Side l2 := by
  induction l1 with
  | nil => rfl
  | cons op t ih => simp [text2Side, ih]

theorem text1_pushEq (c : Char) (l : List DiffOp) :
    text1Side (pushEq c l) = c :: text1Side l := by
  cases l with
  | nil => rfl
  | cons op t => cases op <;> rfl

theorem text1_pushDel (c : Char) (l : List DiffOp) :
    text1Side (pushDel c l) = c :: text1Side l := by
  cases l with
  | nil => rfl
  | cons op t => cases op <;> rfl

theorem text1_pushIns (c : Char) (l : List DiffOp) :
    text1Side (pushIns c l) = text1Side l := by
  cases l with
  | nil => rfl
  | cons op t => cases op <;> rfl

theorem text2_pushEq (c : Char) (l : List DiffOp) :
    text2Side (pushEq c l) = c :: text2Side l := by
  cases l with
  | nil => rfl
  | cons op t => cases op <;> rfl

theorem text2_pushDel (c : Char) (l : List DiffOp) :
    text2Side (pushDel c l) = text2Side l := by
  cases l with
  | nil => rfl
  | cons op t => cases op <;> rfl

theorem text2_pushIns (c : Char) (l : List DiffOp) :
    text2Side (pushIns c l) = c :: text2Side l := by
  cases l with
  | nil => rfl
  | cons op t => cases op <;> rfl

theorem text1_diffCoreF : ∀ (fuel : Nat) (a b : List Char),
    text1Side (diffCoreF fuel a b) = a := by
  intro fuel
  induction fuel with
  | zero => intro a b; cases a <;> cases b <;> simp [diffCoreF, text1Side, opText1]
  | succ n ih =>
    intro a b
    cases a with
    | nil => cases b <;> simp [diffCoreF, text1Side, opText1]
    | cons x as =>
      cases b with
      | nil => simp [diffCoreF, text1Side, opText1]
      | cons y bs =>
        rw [diffCoreF]
        by_cases hxy : x = y
        · rw [if_pos hxy, text1_pushEq, ih]
        · rw [if_neg hxy]
          by_cases hc :
              editCost (diffCoreF n as (y :: bs)) ≤ editCost (diffCoreF n (x :: as) bs)
          · rw [if_pos hc, text1_pushDel, ih]
          · rw [if_neg hc, text1_pushIns, ih]

theorem text2_diffCoreF : ∀ (fuel : Nat) (a b : List Char),
    text2Side (diffCoreF fuel a b) = b := by
  intro fuel
  induction fuel with
  | zero => intro a b; cases a <;> cases b <;> simp [diffCoreF, text2Side, opText2]
  | succ n ih =>
    intro a b
    cases a with
    | nil => cases b <;> simp [diffCoreF, text2Side, opText2]
    | cons x as =>
      cases b with
      | nil => simp [diffCoreF, text2Side, opText2]
      | cons y bs =>
        rw [diffCoreF]
        by_cases hxy : x = y
        · rw [if_pos hxy, text2_pushEq, ih, hxy]
        · rw [if_neg hxy]
          by_cases hc :
              editCost (diffCoreF n as (y :: bs)) ≤ editCost (diffCoreF n (x :: as) bs)
          · rw [if_pos hc, text2_pushDel, ih]
          · rw [if_neg hc, text2_pushIns, ih]

theorem text1_pushEqList (t : List Char) (l : List DiffOp) :
    text1Side (pushEqList t l) = t ++ text1Side l := by
  cases l with
  | nil => rfl
  | cons op r => cases op <;> simp [pushEqList, text1Side, opText1]

theorem text2_pushEqList (t : List Char) (l : List DiffOp) :
    text2Side (pushEqList t l) = t ++ text2Side l := by
  cases l with
  | nil => rfl
  | cons op r => cases op <;> simp [pushEqList, text2Side, opText2]

theorem text1_mergeAux : ∀ (l : List DiffOp) (d i : List Char),
    text1Side (mergeAux d i l) = d ++ text1Side l := by
  intro l
  induction l with
  | nil =>
    intro d i
    by_cases hd : d = [] <;> by_cases hi : i = [] <;>
      simp [mergeAux, hd, hi, text1_append, text1Side, opText1]
  | cons op rest ih =>
    intro d i
    cases op with
    | del t => simp [mergeAux, ih, text1Side, opText1]
    | ins t => simp [mergeAux, ih, text1Side, opText1]
    | equal t =>
      by_cases ht : t = []
      · simp [mergeAux, ht, ih, text1Side, opText1]
      · rw [mergeAux, if_neg ht]
        by_cases hd : d = [] <;> by_cases hi : i = [] <;>
          simp [hd, hi, text1_append, text1_pushEqList, ih, text1Side, opText1]

theorem text2_mergeAux : ∀ (l : List DiffOp) (d i : List Char),
    text2Side (mergeAux d i l) = i ++ text2Side l := by
  intro l
  induction l with
  | nil =>
    intro d i
    by_cases hd : d = [] <;> by_cases hi : i = [] <;>
      simp [mergeAux, hd, hi, text2_append, text2Side, opText2]
  | cons op rest ih =>
    intro d i
    cases op with
    | del t => simp [mergeAux, ih, text2Side, opText2]
    | ins t => simp [mergeAux, ih, text2Side, opText2]
    | equal t =>
      by_cases ht : t = []
      · simp [mergeAux, ht, ih, text2Side, opText2]
      · rw [mergeAux, if_neg ht]
        by_cases hd : d = [] <;> by_cases hi : i = [] <;>
          simp [hd, hi, text2_append, text2_pushEqList, ih, text2Side, opText2]

theorem text1_cleanupMerge (l : List DiffOp) :
    text1Side (cleanupMerge l) = text1Side l := by
  rw [cleanupMerge, text1_mergeAux]; rfl

theorem text2_cleanupMerge (l : List DiffOp) :
    text2Side (cleanupMerge l) = text2Side l := by
  rw [cleanupMerge, text2_mergeAux]; rfl

theorem text1_semCore (l : List DiffOp) : text1Side (semCore l) = text1Side l := by
  induction l using semCore.induct with
  | case1 a e b rest hcond ih =>
    rw [semCore, if_pos hcond]
    simp [text1Side, opText1, ih]
  | case2 a e b rest hcond ih =>
    rw [semCore, if_neg hcond]
    simp [text1Side, ih]
  | case3 a rest ih h1 => simpa [semCore, text1Side] using h1
  | case4 => rfl

theorem text2_semCore (l : List DiffOp) : text2Side (semCore l) = text2Side l := by
  induction l using semCore.induct with
  | case1 a e b rest hcond ih =>
    rw [semCore, if_pos hcond]
    simp [text2Side, opText2, ih]
  | case2 a e b rest hcond ih =>
    rw [semCore, if_neg hcond]
    simp [text2Side, ih]
  | case3 a rest ih h1 => simpa [semCore, text2Side] using h1
  | case4 => rfl

theorem text1_effCore (l : List DiffOp) : text1Side (effCore l) = text1Side l := by
  induction l using effCore.induct with
  | case1 d i e d2 i2 rest hcond ih =>
    rw [effCore, if_pos hcond]
    simp [text1Side, opText1, ih]
  | case2 d i e d2 i2 rest hcond ih =>
    rw [effCore, if_neg hcond]
    have hstep : text1Side (DiffOp.del d ::
        effCore (DiffOp.ins i :: DiffOp.equal e :: DiffOp.del d2 :: DiffOp.ins i2 :: rest))
        = d ++ text1Side
            (effCore (DiffOp.ins i :: DiffOp.equal e :: DiffOp.del d2 :: DiffOp.ins i2 :: rest)) :=
      rfl
    rw [hstep, ih]
    rfl
  | case3 a rest ih h1 => simpa [effCore, text1Side] using h1
  | case4 => rfl

theorem text2_effCore (l : List DiffOp) : text2Side (effCore l) = text2Side l := by
  induction l using effCore.induct with
  | case1 d i e d2 i2 rest hcond ih =>
    rw [effCore, if_pos hcond]
    simp [text2Side, opText2, ih]
  | case2 d i e d2 i2 rest hcond ih =>
    rw [effCore, if_neg hcond]
    have hstep : text2Side (DiffOp.del d ::
        effCore (DiffOp.ins i :: DiffOp.equal e :: DiffOp.del d2 :: DiffOp.ins i2 :: rest))
        = text2Side
            (effCore (DiffOp.ins i :: DiffOp.equal e :: DiffOp.del d2 :: DiffOp.ins i2 :: rest)) :=
      rfl
    rw [hstep, ih]
    rfl
  | case3 a rest ih h1 => simpa [effCore, text2Side] using h1
  | case4 => rfl

theorem commonHead_append_drop_left : ∀ a b : List Char,
    commonHead a b ++ a.drop (commonHead a b).length = a := by
  intro a
  induction a with
  | nil => intro b; cases b <;> simp [commonHead]
  | cons x as ih =>
    intro b
    cases b with
    | nil => simp [commonHead]
    | cons y bs =>
      by_cases h : x = y
      · simp [commonHead, h, ih bs]
      · simp [commonHead, h]

theorem commonHead_append_drop_right : ∀ a b : List Char,
    commonHead a b ++ b.drop (commonHead a b).length = b := by
  intro a
  induction a with
  | nil => intro b; cases b <;> simp [commonHead]
  | cons x as ih =>
    intro b
    cases b with
    | nil => simp [commonHead]
    | cons y bs =>
      by_cases h : x = y
      · subst h; simp [commonHead, ih bs]
      · simp [commonHead, h]

theorem take_sub_append {α : Type} (u s l : List α) (h : u ++ s = l) :
    l.take (l.length - s.length) ++ s = l := by
  subst h
  rw [List.length_append, Nat.add_sub_cancel, List.take_left]

theorem commonTail_take_append_left (a b : List Char) :
    a.take (a.length - (commonTail a b).length) ++ commonTail a b = a := by
  refine take_sub_append
    (a.reverse.drop (commonHead a.reverse b.reverse).length).reverse (commonTail a b) a ?_
  rw [commonTail]
  conv_rhs => rw [← List.reverse_reverse a, ← commonHead_append_drop_left a.reverse b.reverse]
  rw [List.reverse_append]

theorem commonTail_take_append_right (a b : List Char) :
    b.take (b.length - (commonTail a b).length) ++ commonTail a b = b := by
  refine take_sub_append
    (b.reverse.drop (commonHead a.reverse b.reverse).length).reverse (commonTail a b) b ?_
  rw [commonTail]
  conv_rhs => rw [← List.reverse_reverse b, ← commonHead_append_drop_right a.reverse b.reverse]
  rw [List.reverse_append]

theorem text1_eqWrap (p : List Char) :
    text1Side (if p = [] then ([] : List DiffOp) else [.equal p]) = p := by
  by_cases h : p = [] <;> simp [h, text1Side, opText1]

theorem text2_eqWrap (p : List Char) :
    text2Side (if p = [] then ([] : List DiffOp) else [.equal p]) = p := by
  by_cases h : p = [] <;> simp [h, text2Side, opText2]

theorem text1_diffMain (a b : List Char) : text1Side (diffMain a b) = a := by
  by_cases hab : a = b
  · rw [diffMain, if_pos hab]
    by_cases ha : a = [] <;> simp [ha, text1Side, opText1]
  · rw [diffMain, if_neg hab, text1_cleanupMerge, text1_append, text1_append,
      text1_eqWrap, text1_eqWrap, text1_diffCoreF, List.append_assoc,
      commonTail_take_append_left, commonHead_append_drop_left]

theorem text2_diffMain (a b : List Char) : text2Side (diffMain a b) = b := by
  by_cases hab : a = b
  · subst hab
    rw [diffMain, if_pos rfl]
    by_cases ha : a = [] <;> simp [ha, text2Side, opText2]
  · rw [diffMain, if_neg hab, text2_cleanupMerge, text2_append, text2_append,
      text2_eqWrap, text2_eqWrap, text2_diffCoreF, List.append_assoc,
      commonTail_take_append_right, commonHead_append_drop_right]

theorem text1_diffPipeline (a b : List Char) : text1Side (diffPipeline a b) = a := by
  rw [diffPipeline, cleanupEfficiency, text1_cleanupMerge, text1_effCore,
    cleanupSemantic, text1_cleanupMerge, text1_semCore, text1_diffMain]

theorem text2_diffPipeline (a b : List Char) : text2Side (diffPipeline a b) = b := by
  rw [diffPipeline, cleanupEfficiency, text2_cleanupMerge, text2_effCore,
    cleanupSemantic, text2_cleanupMerge, text2_semCore, text2_diffMain]

/-- C1: for every pair of input strings, the diff operation sequence
produced by the diff engine (`diff_main` followed by the semantic and
efficiency cleanup passes, exactly as invoked by `processCorrectionData`)
satisfies the round-trip law: the concatenated text of all Equal and
Delete operations equals the original string, and the concatenated text of
all Equal and Insert operations equals the edited string. -/
theorem diffPipeline_round_trip (a b : List Char) :
    text1Side (diffPipeline a b) = a ∧ text2Side (diffPipeline a b) = b :=
  ⟨text1_diffPipeline a b, text2_diffPipeline a b⟩

theorem synthWalk_mem (pid : String) (pn : Nat) (ot ct : List Char) :
    ∀ (l : List DiffOp) (cursor idx : Nat) (c : Correction),
      c ∈ synthWalk pid pn ot ct cursor idx l →
      cursor ≤ c.startOffset ∧ c.startOffset ≤ c.endOffset ∧
        c.endOffset ≤ cursor + (text1Side l).length ∧
        c.originalText = ot ∧
        (c.changeType = .addition → c.startOffset = c.endOffset) ∧
        (c.changeType = .deletion → c.endOffset = c.startOffset + c.diffText.length) := by
  intro l
  induction l with
  | nil => intro cursor idx c hc; simp [synthWalk] at hc
  | cons op rest ih =>
    intro cursor idx c hc
    cases op with
    | equal t =>
      obtain ⟨h1, h2, h3, h4, h5, h6⟩ :=
        ih (cursor + t.length) idx c (by simpa [synthWalk] using hc)
      have hlen : (text1Side (DiffOp.equal t :: rest)).length
          = t.length + (text1Side rest).length := by
        simp [text1Side, opText1]
      exact ⟨by omega, h2, by omega, h4, h5, h6⟩
    | del t =>
      rw [synthWalk] at hc
      have hlen : (text1Side (DiffOp.del t :: rest)).length
          = t.length + (text1Side rest).length := by
        simp [text1Side, opText1]
      rcases List.mem_cons.mp hc with hhead | htail
      · subst hhead
        refine ⟨Nat.le_refl _, Nat.le_add_right _ _, ?_, rfl, ?_, fun _ => rfl⟩
        · show cursor + t.length ≤ cursor + (text1Side (DiffOp.del t :: rest)).length
          omega
        · intro hct
          simp [mkDeletionCorrection] at hct
      · obtain ⟨h1, h2, h3, h4, h5, h6⟩ := ih (cursor + t.length) (idx + 1) c htail
        exact ⟨by omega, h2, by omega, h4, h5, h6⟩
    | ins t =>
      rw [synthWalk] at hc
      have hlen : (text1Side (DiffOp.ins t :: rest)).length
          = (text1Side rest).length := by
        simp [text1Side, opText1]
      rcases List.mem_cons.mp hc with hhead | htail
      · subst hhead
        refine ⟨Nat.le_refl _, Nat.le_refl _, ?_, rfl, fun _ => rfl, ?_⟩
        · show cursor ≤ cursor + (text1Side (DiffOp.ins t :: rest)).length
          omega
        · intro hct
          simp [mkAdditionCorrection] at hct
      · obtain ⟨h1, h2, h3, h4, h5, h6⟩ := ih cursor (idx + 1) c htail
        exact ⟨h1, h2, by omega, h4, h5, h6⟩

/-- C2: the correction synthesizer maintains a cursor over the original
text starting at 0: Equal advances it by the operation's length and emits
nothing; Delete emits a deletion correction with `startOffset = cursor`,
`endOffset = cursor + len(text)`, `diffText = text` and then advances;
Insert emits a zero-width addition correction at the cursor and does not
advance.  Consequently every correction emitted by `processParagraph`
satisfies `0 ≤ startOffset ≤ endOffset ≤ len(originalText)` (offsets are
naturals, so `0 ≤ startOffset` is inherent). -/
theorem synth_cursor_spec :
    (∀ (pid : String) (pn : Nat) (ot ct : List Char) (cursor idx : Nat)
        (t : List Char) (l : List DiffOp),
      synthWalk pid pn ot ct cursor idx (.equal t :: l)
        = synthWalk pid pn ot ct (cursor + t.length) idx l) ∧
    (∀ (pid : String) (pn : Nat) (ot ct : List Char) (cursor idx : Nat)
        (t : List Char) (l : List DiffOp),
      synthWalk pid pn ot ct cursor idx (.del t :: l)
        = mkDeletionCorrection pid pn ot ct cursor idx t ::
            synthWalk pid pn ot ct (cursor + t.length) (idx + 1) l) ∧
    (∀ (pid : String) (pn : Nat) (ot ct : List Char) (cursor idx : Nat)
        (t : List Char) (l : List DiffOp),
      synthWalk pid pn ot ct cursor idx (.ins t :: l)
        = mkAdditionCorrection pid pn ot ct cursor idx t ::
            synthWalk pid pn ot ct cursor (idx + 1) l) ∧
    (∀ (pid : String) (pn : Nat) (wt le : List Char) (c : Correction),
      c ∈ processParagraph pid pn wt le →
      c.startOffset ≤ c.endOffset ∧ c.endOffset ≤ c.originalText.length ∧
        (c.changeType = .addition → c.startOffset = c.endOffset) ∧
        (c.changeType = .deletion → c.endOffset = c.startOffset + c.diffText.length)) := by
  refine ⟨fun _ _ _ _ _ _ _ _ => rfl, fun _ _ _ _ _ _ _ _ => rfl,
    fun _ _ _ _ _ _ _ _ => rfl, ?_⟩
  intro pid pn wt le c hc
  rw [processParagraph] at hc
  by_cases heq : trimJs wt = trimJs (removeMarkupTagsDm le)
  · rw [if_pos heq] at hc; simp at hc
  · rw [if_neg heq] at hc
    have h := synthWalk_mem pid pn (trimJs wt) (trimJs (removeMarkupTagsDm le))
      (diffPipeline (trimJs wt) (trimJs (removeMarkupTagsDm le))) 0 0 c hc
    have hrt : (text1Side (diffPipeline (trimJs wt)
        (trimJs (removeMarkupTagsDm le)))).length = (trimJs wt).length := by
      rw [text1_diffPipeline]
    obtain ⟨h1, h2, h3, h4, h5, h6⟩ := h
    refine ⟨h2, ?_, h5, h6⟩
    rw [h4]
    omega

/-- Witness for C2: the first correction synthesized for the paragraph
pair ("ab", "b") satisfies the offset bounds. -/
theorem synth_cursor_spec_witness :
    ((processParagraph "p" 1 "ab".toList "b".toList).get ⟨0, by decide⟩).startOffset ≤
        ((processParagraph "p" 1 "ab".toList "b".toList).get ⟨0, by decide⟩).endOffset ∧
      ((processParagraph "p" 1 "ab".toList "b".toList).get ⟨0, by decide⟩).endOffset ≤
        ((processParagraph "p" 1 "ab".toList "b".toList).get ⟨0, by decide⟩).originalText.length ∧
      (((processParagraph "p" 1 "ab".toList "b".toList).get ⟨0, by decide⟩).changeType
          = .addition →
        ((processParagraph "p" 1 "ab".toList "b".toList).get ⟨0, by decide⟩).startOffset
          = ((processParagraph "p" 1 "ab".toList "b".toList).get ⟨0, by decide⟩).endOffset) ∧
      (((processParagraph "p" 1 "ab".toList "b".toList).get ⟨0, by decide⟩).changeType
          = .deletion →
        ((processParagraph "p" 1 "ab".toList "b".toList).get ⟨0, by decide⟩).endOffset
          = ((processParagraph "p" 1 "ab".toList "b".toList).get ⟨0, by decide⟩).startOffset
            + ((processParagraph "p" 1 "ab".toList "b".toList).get ⟨0, by decide⟩).diffText.length) :=
  synth_cursor_spec.2.2.2 "p" 1 "ab".toList "b".toList _ (List.get_mem _ _ _)

/-- C7: a paragraph whose trimmed live text equals its normalized trimmed
edited text contributes no corrections; the definition of
`processParagraph` returns `[]` from its equality guard without invoking
the diff pipeline. -/
theorem identical_normalized_no_corrections (pid : String) (pn : Nat)
    (wt le : List Char) (h : trimJs wt = trimJs (removeMarkupTagsDm le)) :
    processParagraph pid pn wt le = [] := by
  rw [processParagraph, if_pos h]

/-- Witness for C7: the Scenario A paragraph (original "Dutch (Moroccan)",
edited with a style tag and inline tags) yields zero corrections. -/
theorem identical_normalized_no_corrections_witness :
    trimJs "Dutch (Moroccan)".toList
        = trimJs (removeMarkupTagsDm
            "<{ch_head}> <[i]><[b]>Dutch (Moroccan)<[/b]><[/i]>".toList) ∧
      processParagraph "36E7A870" 1 "Dutch (Moroccan)".toList
        "<{ch_head}> <[i]><[b]>Dutch (Moroccan)<[/b]><[/i]>".toList = [] :=
  ⟨by decide, identical_normalized_no_corrections "36E7A870" 1 _ _ (by decide)⟩

/-- C8 counterexample: for original "E. Coli, a common bacteria" and
edited "E. coli, a common bacteria" the synthesizer emits no correction
with `changeType = modification` at all (it emits exactly two
corrections), so the claimed "single-character modification correction"
does not exist. -/
theorem ecoli_no_modification_cex :
    ((processParagraph "5340ECB8" 1 "E. Coli, a common bacteria".toList
        "E. coli, a common bacteria".toList).filter
      (fun c => c.changeType == ChangeType.modification)) = [] ∧
      (processParagraph "5340ECB8" 1 "E. Coli, a common bacteria".toList
        "E. coli, a common bacteria".toList).length = 2 := by decide

/-- C8 amended: for that input the synthesizer produces two corrections
localized to the single character "C" at offset 3: a deletion of "C" with
offsets 3–4 and a zero-width addition of "c" at offset 4 (the synthesizer
never emits `changeType = modification`). -/
theorem ecoli_two_corrections :
    (processParagraph "5340ECB8" 1 "E. Coli, a common bacteria".toList
        "E. coli, a common bacteria".toList).map
      (fun c => (c.changeType, c.startOffset, c.endOffset, c.diffText)) =
    [(ChangeType.deletion, 3, 4, ['C']), (ChangeType.addition, 4, 4, ['c'])] := by decide

theorem setStatusAt_length (cs : List Correction) (i : Nat) (st : Status) :
    (setStatusAt cs i st).length = cs.length := by
  rw [setStatusAt]
  cases h : cs.get? i with
  | none => rfl
  | some c => simp

theorem setStatusAt_get_self (cs : List Correction) (i : Nat) (st : Status)
    (c : Correction) (h : cs.get? i = some c) :
    (setStatusAt cs i st).get? i = some { c with status := st } := by
  have hlt : i < cs.length := by
    by_contra hge
    rw [List.get?_eq_none.mpr (Nat.le_of_not_lt hge)] at h
    exact Option.noConfusion h
  rw [setStatusAt, h, List.get?_eq_getElem?, List.getElem?_set_eq_of_lt _ hlt]

theorem navigateNext_corrections (s : Session) :
    (navigateNext s).corrections = s.corrections := by
  rw [navigateNext]; split <;> rfl

theorem navigateNext_index (s : Session) :
    (navigateNext s).currentIndex =
      if s.currentIndex < s.corrections.length - 1 then s.currentIndex + 1
      else s.currentIndex := by
  rw [navigateNext]; split <;> simp_all

/-- C4 counterexample: in a one-correction session, `rejectCurrent` sets
the status to rejected and the cursor stays at 0 (clamped), so a following
`skipCurrent` overwrites the supposedly terminal rejected status with
skipped — the claim that applied/rejected never change again is false for
the cursor-based operations. -/
theorem resolved_status_overwritten_cex :
    (((rejectCurrentCorrection (startReview [demoCorr])).corrections.get? 0).map
        Correction.status = some Status.rejected) ∧
      (((skipCurrentCorrection (rejectCurrentCorrection
          (startReview [demoCorr]))).corrections.get? 0).map
        Correction.status = some Status.skipped) := by decide

/-- C4 amended: the ID-based operations `applySpecificCorrection` and
`rejectSpecificCorrection` guard on `status = pending` and therefore never
change a correction that is already applied, rejected or skipped (they
return false and leave the document and session untouched); terminality of
applied/rejected holds only for these ID-based operations, while the
cursor-based applyCurrent/rejectCurrent/skipCurrent overwrite any status. -/
theorem specific_ops_preserve_nonpending (doc : List (List Char)) (s : Session)
    (cid : String) (c : Correction)
    (hfind : s.corrections.find? (fun x => x.id == cid) = some c)
    (hst : c.status ≠ Status.pending) :
    applySpecificSession doc s cid = (doc, s, false) ∧
      rejectSpecificSession s cid = (s, false) := by
  constructor
  · simp only [applySpecificSession, hfind]
    rw [if_pos hst]
  · simp only [rejectSpecificSession, hfind]
    rw [if_pos hst]

/-- Witness for C4: a session holding one applied correction is untouched
by the ID-based apply and reject operations. -/
theorem specific_ops_preserve_nonpending_witness :
    (Session.mk [demoApplied] 0 true).corrections.find?
        (fun x => x.id == "D1-error-2") = some demoApplied ∧
      demoApplied.status ≠ Status.pending ∧
      (applySpecificSession [] (Session.mk [demoApplied] 0 true) "D1-error-2"
          = ([], Session.mk [demoApplied] 0 true, false) ∧
        rejectSpecificSession (Session.mk [demoApplied] 0 true) "D1-error-2"
          = (Session.mk [demoApplied] 0 true, false)) :=
  ⟨by decide, by decide,
    specific_ops_preserve_nonpending [] (Session.mk [demoApplied] 0 true)
      "D1-error-2" demoApplied (by decide) (by decide)⟩

/-- C9 counterexample: with the cursor on the last (here: only)
correction, `rejectCurrent` does not advance the cursor by one —
`navigateNext` is clamped to `length - 1` — contradicting the claim that
each operation advances the cursor by exactly one. -/
theorem cursor_not_advanced_at_end_cex :
    (rejectCurrentCorrection (startReview [demoCorr])).currentIndex
      ≠ (startReview [demoCorr]).currentIndex + 1 := by decide

/-- C9 amended: when a current correction exists, each of rejectCurrent,
skipCurrent (and applyCurrent, given the correction holds a live range
handle) sets that correction's status and then advances the cursor by one
unless the cursor is already on the last correction, where it stays
(cursor movement is clamped to `[0, length)`); `current()` afterwards
returns exactly the correction stored at the resulting cursor. -/
theorem current_ops_spec (s : Session) (c : Correction)
    (hc : getCurrentCorrection s = some c) :
    ((rejectCurrentCorrection s).corrections.get? s.currentIndex
        = some { c with status := Status.rejected } ∧
      (rejectCurrentCorrection s).currentIndex
        = (if s.currentIndex < s.corrections.length - 1 then s.currentIndex + 1
           else s.currentIndex) ∧
      getCurrentCorrection (rejectCurrentCorrection s)
        = (rejectCurrentCorrection s).corrections.get?
            (rejectCurrentCorrection s).currentIndex) ∧
    ((skipCurrentCorrection s).corrections.get? s.currentIndex
        = some { c with status := Status.skipped } ∧
      (skipCurrentCorrection s).currentIndex
        = (if s.currentIndex < s.corrections.length - 1 then s.currentIndex + 1
           else s.currentIndex) ∧
      getCurrentCorrection (skipCurrentCorrection s)
        = (skipCurrentCorrection s).corrections.get?
            (skipCurrentCorrection s).currentIndex) ∧
    (c.hasWordRange = true →
      (applyCurrentCorrection s).2 = true ∧
      (applyCurrentCorrection s).1.corrections.get? s.currentIndex
        = some { c with status := Status.applied } ∧
      (applyCurrentCorrection s).1.currentIndex
        = (if s.currentIndex < s.corrections.length - 1 then s.currentIndex + 1
           else s.currentIndex)) := by
  have hg : s.corrections.get? s.currentIndex = some c := hc
  refine ⟨⟨?_, ?_, rfl⟩, ⟨?_, ?_, rfl⟩, ?_⟩
  · simp only [rejectCurrentCorrection, hc]
    rw [navigateNext_corrections]
    exact setStatusAt_get_self s.corrections s.currentIndex .rejected c hg
  · simp only [rejectCurrentCorrection, hc]
    rw [navigateNext_index, setStatusAt_length]
  · simp only [skipCurrentCorrection, hc]
    rw [navigateNext_corrections]
    exact setStatusAt_get_self s.corrections s.currentIndex .skipped c hg
  · simp only [skipCurrentCorrection, hc]
    rw [navigateNext_index, setStatusAt_length]
  · intro hwr
    simp only [applyCurrentCorrection, hc]
    rw [if_pos hwr]
    refine ⟨rfl, ?_, ?_⟩
    · rw [navigateNext_corrections]
      exact setStatusAt_get_self s.corrections s.currentIndex .applied c hg
    · rw [navigateNext_index, setStatusAt_length]

/-- Witness for C9: the amended behaviour evaluated on a concrete
two-correction session with the cursor on the first element. -/
theorem current_ops_spec_witness :
    getCurrentCorrection (Session.mk [demoCorr, demoApplied] 0 true) = some demoCorr ∧
      (((rejectCurrentCorrection (Session.mk [demoCorr, demoApplied] 0 true)).corrections.get? 0
          = some { demoCorr with status := Status.rejected } ∧
        (rejectCurrentCorrection (Session.mk [demoCorr, demoApplied] 0 true)).currentIndex
          = (if 0 < (Session.mk [demoCorr, demoApplied] 0 true).corrections.length - 1
             then 0 + 1 else 0) ∧
        getCurrentCorrection (rejectCurrentCorrection (Session.mk [demoCorr, demoApplied] 0 true))
          = (rejectCurrentCorrection (Session.mk [demoCorr, demoApplied] 0 true)).corrections.get?
              (rejectCurrentCorrection (Session.mk [demoCorr, demoApplied] 0 true)).currentIndex) ∧
      ((skipCurrentCorrection (Session.mk [demoCorr, demoApplied] 0 true)).corrections.get? 0
          = some { demoCorr with status := Status.skipped } ∧
        (skipCurrentCorrection (Session.mk [demoCorr, demoApplied] 0 true)).currentIndex
          = (if 0 < (Session.mk [demoCorr, demoApplied] 0 true).corrections.length - 1
             then 0 + 1 else 0) ∧
        getCurrentCorrection (skipCurrentCorrection (Session.mk [demoCorr, demoApplied] 0 true))
          = (skipCurrentCorrection (Session.mk [demoCorr, demoApplied] 0 true)).corrections.get?
              (skipCurrentCorrection (Session.mk [demoCorr, demoApplied] 0 true)).currentIndex) ∧
      (demoCorr.hasWordRange = true →
        (applyCurrentCorrection (Session.mk [demoCorr, demoApplied] 0 true)).2 = true ∧
        (applyCurrentCorrection (Session.mk [demoCorr, demoApplied] 0 true)).1.corrections.get? 0
          = some { demoCorr with status := Status.applied } ∧
        (applyCurrentCorrection (Session.mk [demoCorr, demoApplied] 0 true)).1.currentIndex
          = (if 0 < (Session.mk [demoCorr, demoApplied] 0 true).corrections.length - 1
             then 0 + 1 else 0))) :=
  ⟨by decide, current_ops_spec (Session.mk [demoCorr, demoApplied] 0 true) demoCorr (by decide)⟩

theorem status_counts_sum (cs : List Correction) :
    cs.countP (fun c => c.status == Status.applied)
      + cs.countP (fun c => c.status == Status.rejected)
      + cs.countP (fun c => c.status == Status.skipped)
      + cs.countP (fun c => c.status == Status.pending) = cs.length := by
  induction cs with
  | nil => rfl
  | cons c t ih =>
    cases hc : c.status <;> simp [List.countP_cons, hc] <;> omega

/-- C10: at every point the `progress()` counts sum to the total (each
correction holds exactly one status), and every count is recomputed from
the corrections' current statuses — each field of `getProgress` equals the
corresponding count over the session's correction list at call time, with
`total` its length and `current` the cursor plus one. -/
theorem progress_counts_sum (os : Option Session) (s : Session) :
    ((getProgress os).applied + (getProgress os).rejected + (getProgress os).skipped
        + (getProgress os).pending = (getProgress os).total) ∧
      (getProgress (some s)).applied
        = s.corrections.countP (fun c => c.status == Status.applied) ∧
      (getProgress (some s)).rejected
        = s.corrections.countP (fun c => c.status == Status.rejected) ∧
      (getProgress (some s)).skipped
        = s.corrections.countP (fun c => c.status == Status.skipped) ∧
      (getProgress (some s)).pending
        = s.corrections.countP (fun c => c.status == Status.pending) ∧
      (getProgress (some s)).total = s.corrections.length ∧
      (getProgress (some s)).current = s.currentIndex + 1 := by
  refine ⟨?_, rfl, rfl, rfl, rfl, rfl, rfl⟩
  cases os with
  | none => rfl
  | some s2 => exact status_counts_sum s2.corrections

/-- C3 (code bug): on a failed post-mutation verification in the
segment-level path, the applier rebuilds the paragraph from
`normalizedCurrent` — the trimmed, whitespace-collapsed current text —
although the exact snapshot was saved for rollback and is left unused
(part_002 lines 867, 891–894).  Starting from the live text
"Hello  world" (two spaces), the failed apply leaves "Hello world" (one
space) in the document, which is not character-for-character equal to the
pre-apply text; failure is surfaced (false) and the status stays pending
(the session is unchanged). -/
theorem applySpecific_rollback_collapses_whitespace :
    applySpecificSession ["Hello  world".toList] (Session.mk [c3Correction] 0 true)
        "B2-error-1"
      = (["Hello world".toList], Session.mk [c3Correction] 0 true, false) ∧
      "Hello world".toList ≠ "Hello  world".toList := by decide

/-- C5 counterexample: the documentMapping.ts normalizer is not
idempotent.  On "<<{a}>{b}>" the style-tag pass removes the inner
`<{a}>`, which splices the remaining characters into the new style tag
"<{b}>"; a second application removes that too, so
normalize(normalize(x)) ≠ normalize(x). -/
theorem removeMarkupTags_not_idempotent_cex :
    removeMarkupTagsDm (removeMarkupTagsDm "<<{a}>{b}>".toList)
      ≠ removeMarkupTagsDm "<<{a}>{b}>".toList := by decide

theorem replaceAllF_eq_self (m : List Char → Option Nat) (trig : Char)
    (hm : ∀ c cs, c ≠ trig → m (c :: cs) = none) :
    ∀ (fuel : Nat) (l : List Char), trig ∉ l → replaceAllF m fuel l = l := by
  intro fuel
  induction fuel with
  | zero => intro l hl; cases l <;> rfl
  | succ n ih =>
    intro l hl
    cases l with
    | nil => rfl
    | cons c cs =>
      have hc : c ≠ trig := fun h => hl (h ▸ List.mem_cons_self c cs)
      simp only [replaceAllF, hm c cs hc]
      rw [ih cs (fun h => hl (List.mem_cons_of_mem c h))]

theorem replaceAll_eq_self (m : List Char → Option Nat) (trig : Char)
    (hm : ∀ c cs, c ≠ trig → m (c :: cs) = none)
    (l : List Char) (hl : trig ∉ l) : replaceAll m l = l :=
  replaceAllF_eq_self m trig hm l.length l hl

theorem styleTagLen_none (c : Char) (cs : List Char) (h : c ≠ '<') :
    styleTagLen (c :: cs) = none := by
  cases cs with
  | nil => rfl
  | cons c1 rest =>
    simp only [styleTagLen]
    rw [if_neg (fun hand => h hand.1)]

theorem inlineTagLen_none (c : Char) (cs : List Char) (h : c ≠ '<') :
    inlineTagLen (c :: cs) = none := by
  cases cs with
  | nil => rfl
  | cons c1 rest =>
    simp only [inlineTagLen]
    rw [if_neg (fun hand => h hand.1)]

theorem bracketTagLen_none (c : Char) (cs : List Char) (h : c ≠ '[') :
    bracketTagLen (c :: cs) = none := by
  simp only [bracketTagLen]
  rw [if_neg h]

theorem dropWhile_dropWhile (p : Char → Bool) (l : List Char) :
    (l.dropWhile p).dropWhile p = l.dropWhile p := by
  induction l with
  | nil => rfl
  | cons c cs ih =>
    by_cases h : p c
    · simp [List.dropWhile_cons, h, ih]
    · simp [List.dropWhile_cons, h]

theorem dropWhile_trimJs (l : List Char) :
    (trimJs l).dropWhile isJsWS = trimJs l := by
  rw [trimJs]
  cases h : l.dropWhile isJsWS with
  | nil => simp
  | cons c t =>
    have hpc : isJsWS c = false := by
      have hh := List.head?_dropWhile_not isJsWS l
      rw [h] at hh
      simpa using hh
    rw [List.reverse_cons, List.dropWhile_append]
    by_cases he : (t.reverse.dropWhile isJsWS).isEmpty
    · rw [if_pos he]
      simp [List.dropWhile_cons, hpc]
    · rw [if_neg he]
      simp [List.dropWhile_cons, hpc]

/-- Trimming is idempotent. -/
theorem trimJs_trimJs (l : List Char) : trimJs (trimJs l) = trimJs l := by
  show (((trimJs l).dropWhile isJsWS).reverse.dropWhile isJsWS).reverse = trimJs l
  rw [dropWhile_trimJs]
  rw [show (trimJs l).reverse = (l.dropWhile isJsWS).reverse.dropWhile isJsWS from by
    rw [trimJs, List.reverse_reverse]]
  rw [dropWhile_dropWhile]
  rfl

/-- C5 amended: the normalizer is idempotent on every input whose
normalized form is free of the trigger characters of the tag grammars
(no remaining "<" or "["), i.e. whenever one application removes all
markup — which holds for well-formed, non-nested markup; on inputs where
stripping a tag splices a new tag together (as in the counterexample), a
second application can strip further. -/
theorem removeMarkupTags_idempotent_on_clean (l : List Char)
    (h1 : '<' ∉ removeMarkupTagsDm l) (h2 : '[' ∉ removeMarkupTagsDm l) :
    removeMarkupTagsDm (removeMarkupTagsDm l) = removeMarkupTagsDm l := by
  have hst := replaceAll_eq_self styleTagLen '<' styleTagLen_none _ h1
  show trimJs (replaceAll bracketTagLen (replaceAll inlineTagLen
      (replaceAll styleTagLen (removeMarkupTagsDm l)))) = removeMarkupTagsDm l
  rw [hst, replaceAll_eq_self inlineTagLen '<' inlineTagLen_none _ h1,
    replaceAll_eq_self bracketTagLen '[' bracketTagLen_none _ h2]
  show trimJs (trimJs (replaceAll bracketTagLen (replaceAll inlineTagLen
      (replaceAll styleTagLen l)))) = removeMarkupTagsDm l
  rw [trimJs_trimJs]
  rfl

/-- Witness for C5 amended: a style tag followed by text normalizes to a
clean string, on which normalization is idempotent. -/
theorem removeMarkupTags_idempotent_on_clean_witness :
    ('<' ∉ removeMarkupTagsDm "  <{h}> hello ".toList) ∧
      ('[' ∉ removeMarkupTagsDm "  <{h}> hello ".toList) ∧
      removeMarkupTagsDm (removeMarkupTagsDm "  <{h}> hello ".toList)
        = removeMarkupTagsDm "  <{h}> hello ".toList :=
  ⟨by decide, by decide,
    removeMarkupTags_idempotent_on_clean _ (by decide) (by decide)⟩

/-- C6 counterexample: the three normalizer implementations do not meet
one common contract.  part_001's version does not strip the bare
annotation "[endash]" (documentMapping.ts's does); jsonProcessor's version
leaves the closing ">" of a style tag in place and does not strip the
closing inline tag "<[/b]>". -/
theorem normalizers_disagree_cex :
    removeMarkupTagsP1 "[endash]".toList = "[endash]".toList ∧
      removeMarkupTagsDm "[endash]".toList = [] ∧
      removeMarkupTagsJson "<{h}> hi".toList = "> hi".toList ∧
      removeMarkupTagsJson "<[/b]>x".toList = "<[/b]>x".toList := by decide

/-- C6 amended: the full contract (style tags, inline tags, bare bracket
annotations, trim) is implemented by documentMapping.ts's normalizer
alone.  part_001's variant omits only the bare-bracket pass: on every
input left free of "[" by the two angle-tag passes the two agree.
jsonProcessor's variant diverges further (its style regex lacks the
closing ">" and its inline regex matches only single-character tags), as
the counterexample shows. -/
theorem dm_p1_agree_without_brackets (l : List Char)
    (h : '[' ∉ replaceAll inlineTagLen (replaceAll styleTagLen l)) :
    removeMarkupTagsDm l = removeMarkupTagsP1 l := by
  rw [removeMarkupTagsDm, removeMarkupTagsP1,
    replaceAll_eq_self bracketTagLen '[' bracketTagLen_none _ h]

/-- Witness for C6 amended: on a paragraph with a style tag and inline
bold/italic tags, the documentMapping.ts and part_001 normalizers
agree. -/
theorem dm_p1_agree_without_brackets_witness :
    ('[' ∉ replaceAll inlineTagLen (replaceAll styleTagLen
        " <{h}> <[b]>ok<[/b]> ".toList)) ∧
      removeMarkupTagsDm " <{h}> <[b]>ok<[/b]> ".toList
        = removeMarkupTagsP1 " <{h}> <[b]>ok<[/b]> ".toList :=
  ⟨by decide, dm_p1_agree_without_brackets _ (by decide)⟩
